import Mathlib

/-!
Verification of the tile-decomposition and job-submission logic of the
ayon-deadline repository.

The definitions below are shallow embeddings of:
* `_format_tiles` in
  `client/ayon_deadline/plugins/publish/maya/submit_maya_deadline.py`,
* the assembly-job construction and submission loops of
  `MayaSubmitDeadline._tile_render` in the same file,
* `AbstractSubmitDeadline.submit` in `client/ayon_deadline/abstract_submit_deadline.py`,
* `DeadlineIndexedVar` and the list-field handling of `DeadlineJobInfo`
  (`__setattr__` / `_fill_serialize_value`) in `client/ayon_deadline/lib.py`.

Python integers are modelled as `Int` (or `Nat` where the source value is
manifestly non-negative), Python strings either as Lean `String` or, where
we reason about `str.split`, as `List Char`.  Python dicts are modelled as
association lists whose insert overwrites an existing key in place.
-/

namespace AyonDeadline

/-! ## Tile decomposition: `_format_tiles`

One iteration of the nested loop of `_format_tiles` produces one
`TileEntry`.  The fields record everything the loop body writes for that
tile: the filename label (`tileYIndex` is the possibly mirrored y label
used in the filename and region prefix), the plugin-info region bounds
(`top`, `bottom`, `left`, `right`) and the assembly-configuration values
(`cfgX`, `cfgY`, `cfgWidth`, `cfgHeight`).

The directory and base name of the processed file (computed in the source
by `os.path.dirname` / `os.path.basename`) are taken as parameters
`dirName` / `baseName`; no claim depends on how they are computed.
-/

structure TileEntry where
  tileX : Nat
  tileY : Nat
  tileYIndex : Nat
  top : Int
  bottom : Int
  left : Int
  right : Int
  filename : String
  cfgX : Int
  cfgY : Int
  cfgWidth : Int
  cfgHeight : Int
  deriving DecidableEq, Repr

/-- The `_tile_{tileX}x{tileYIndex}_{tilesX}x{tilesY}_` infix inserted in
front of the base filename (`tile_prefix` in the source). -/
def tileTag (tileX tileYIndex tilesX tilesY : Nat) : String :=
  "_tile_" ++ toString tileX ++ "x" ++ toString tileYIndex ++ "_" ++
    toString tilesX ++ "x" ++ toString tilesY ++ "_"

/-- Body of the nested loop of `_format_tiles` for outer index `txm`
(`tile_x = txm + 1`) and inner index `i` (`tile_y = i + 1`).
`reversed_y_range[i]` of the source equals `tilesY - i`. -/
def tileEntry (tilesX tilesY width height : Nat) (reversedY : Bool)
    (dirName baseName : String) (txm i : Nat) : TileEntry :=
  let wSpace : Nat := width / tilesX
  let hSpace : Nat := height / tilesY
  let tileX : Nat := txm + 1
  let tileY : Nat := i + 1
  let tileYIndex : Nat := if reversedY then tilesY - i else tileY
  { tileX := tileX
    tileY := tileY
    tileYIndex := tileYIndex
    top := (height : Int) - (tileY : Int) * (hSpace : Int)
    bottom := (height : Int) - ((tileY : Int) - 1) * (hSpace : Int) - 1
    left := ((tileX : Int) - 1) * (wSpace : Int)
    right := (tileX : Int) * (wSpace : Int) - 1
    filename := dirName ++ "/" ++ tileTag tileX tileYIndex tilesX tilesY ++ baseName
    cfgX := ((tileX : Int) - 1) * (wSpace : Int)
    cfgY := (height : Int) - (tileY : Int) * (hSpace : Int)
    cfgWidth := (wSpace : Nat)
    cfgHeight := (hSpace : Nat) }

/-- All tile entries produced by `_format_tiles`, in iteration order:
outer loop over `tile_x` in `1..tilesX`, inner loop over `tile_y` in
`1..tilesY`.  The `tile` counter of the source increments once per
iteration, so a tile's counter value is its position in this list. -/
def format_tiles_entries (tilesX tilesY width height : Nat) (reversedY : Bool)
    (dirName baseName : String) : List TileEntry :=
  (List.range tilesX).flatMap fun txm =>
    (List.range tilesY).map fun i =>
      tileEntry tilesX tilesY width height reversedY dirName baseName txm i

/-- The pixel rectangle of a tile: columns `left..right`, rows
`top..bottom` (inclusive bounds, top-left-origin coordinates). -/
def tileRectOf (e : TileEntry) : Finset (Int × Int) :=
  Finset.Icc e.left e.right ×ˢ Finset.Icc e.top e.bottom

/-- Python dict insert on string keys: overwrite in place if the key is
present, else append. -/
def dict_set (m : List (String × String)) (k v : String) :
    List (String × String) :=
  if m.any (fun p => p.1 = k) then
    m.map (fun p => if p.1 = k then (k, v) else p)
  else
    m ++ [(k, v)]

/-- The `out["JobInfo"]` dictionary built by `_format_tiles`: every loop
iteration writes the tile filename under the same key
`"OutputFilename{index}"`. -/
def format_tiles_job_info (tilesX tilesY width height : Nat) (reversedY : Bool)
    (index : Nat) (dirName baseName : String) : List (String × String) :=
  (format_tiles_entries tilesX tilesY width height reversedY dirName baseName).foldl
    (fun m e => dict_set m ("OutputFilename" ++ toString index) e.filename) []

/-! ### Closed form of the iteration -/

theorem flatMap_range_map_range (g : Nat → Nat → α) (X Y : Nat) :
    ((List.range X).flatMap fun a => (List.range Y).map fun b => g a b) =
      (List.range (X * Y)).map fun n => g (n / Y) (n % Y) := by
  rcases Nat.eq_zero_or_pos Y with hY | hY
  · subst hY; simp
  · induction X with
    | zero => simp
    | succ X ih =>
      rw [List.range_succ, List.flatMap_append, ih, Nat.succ_mul,
        List.range_add, List.map_append]
      congr 1
      · simp only [List.flatMap_cons, List.flatMap_nil, List.append_nil,
          List.map_map]
        apply List.map_congr_left
        intro b hb
        rw [List.mem_range] at hb
        have h1 : (X * Y + b) / Y = X := by
          rw [Nat.mul_comm X Y, Nat.mul_add_div hY, Nat.div_eq_of_lt hb,
            Nat.add_zero]
        have h2 : (X * Y + b) % Y = b := by
          rw [Nat.mul_comm X Y, Nat.mul_add_mod, Nat.mod_eq_of_lt hb]
        simp [h1, h2]

theorem format_tiles_entries_eq_map (tilesX tilesY width height : Nat)
    (reversedY : Bool) (dirName baseName : String) :
    format_tiles_entries tilesX tilesY width height reversedY dirName baseName =
      (List.range (tilesX * tilesY)).map fun n =>
        tileEntry tilesX tilesY width height reversedY dirName baseName
          (n / tilesY) (n % tilesY) := by
  rw [format_tiles_entries, flatMap_range_map_range]

theorem format_tiles_entries_length (tilesX tilesY width height : Nat)
    (reversedY : Bool) (dirName baseName : String) :
    (format_tiles_entries tilesX tilesY width height reversedY dirName
      baseName).length = tilesX * tilesY := by
  rw [format_tiles_entries_eq_map, List.length_map, List.length_range]

theorem mem_format_tiles_entries {tilesX tilesY width height : Nat}
    {reversedY : Bool} {dirName baseName : String} {e : TileEntry}
    (h : e ∈ format_tiles_entries tilesX tilesY width height reversedY
      dirName baseName) :
    ∃ a b : Nat, a < tilesX ∧ b < tilesY ∧
      e = tileEntry tilesX tilesY width height reversedY dirName baseName a b := by
  rw [format_tiles_entries_eq_map, List.mem_map] at h
  obtain ⟨n, hn, he⟩ := h
  rw [List.mem_range] at hn
  have hY : 0 < tilesY := by
    rcases Nat.eq_zero_or_pos tilesY with h0 | h0
    · subst h0; simp at hn
    · exact h0
  refine ⟨n / tilesY, n % tilesY, ?_, Nat.mod_lt _ hY, he.symm⟩
  exact Nat.div_lt_of_lt_mul (Nat.mul_comm tilesX tilesY ▸ hn)

/-! ### Field computations for tile entries -/

theorem tileEntry_tileX (tilesX tilesY width height : Nat) (reversedY : Bool)
    (dirName baseName : String) (a i : Nat) :
    (tileEntry tilesX tilesY width height reversedY dirName baseName a i).tileX
      = a + 1 := rfl

theorem tileEntry_tileY (tilesX tilesY width height : Nat) (reversedY : Bool)
    (dirName baseName : String) (a i : Nat) :
    (tileEntry tilesX tilesY width height reversedY dirName baseName a i).tileY
      = i + 1 := rfl

theorem tileEntry_tileYIndex (tilesX tilesY width height : Nat)
    (reversedY : Bool) (dirName baseName : String) (a i : Nat) :
    (tileEntry tilesX tilesY width height reversedY dirName baseName
      a i).tileYIndex = if reversedY then tilesY - i else i + 1 := rfl

theorem tileEntry_left (tilesX tilesY width height : Nat) (reversedY : Bool)
    (dirName baseName : String) (a i : Nat) :
    (tileEntry tilesX tilesY width height reversedY dirName baseName a i).left
      = (a : Int) * ((width / tilesX : Nat) : Int) := by
  simp only [tileEntry]
  push_cast
  ring

theorem tileEntry_right (tilesX tilesY width height : Nat) (reversedY : Bool)
    (dirName baseName : String) (a i : Nat) :
    (tileEntry tilesX tilesY width height reversedY dirName baseName a i).right
      = ((a : Int) + 1) * ((width / tilesX : Nat) : Int) - 1 := by
  simp only [tileEntry]
  push_cast
  ring

theorem tileEntry_top (tilesX tilesY width height : Nat) (reversedY : Bool)
    (dirName baseName : String) (a i : Nat) :
    (tileEntry tilesX tilesY width height reversedY dirName baseName a i).top
      = (height : Int) - ((i : Int) + 1) * ((height / tilesY : Nat) : Int) := by
  simp only [tileEntry]
  push_cast
  ring

theorem tileEntry_bottom (tilesX tilesY width height : Nat) (reversedY : Bool)
    (dirName baseName : String) (a i : Nat) :
    (tileEntry tilesX tilesY width height reversedY dirName baseName a i).bottom
      = (height : Int) - (i : Int) * ((height / tilesY : Nat) : Int) - 1 := by
  simp only [tileEntry]
  push_cast
  ring

theorem tileEntry_cfgY (tilesX tilesY width height : Nat) (reversedY : Bool)
    (dirName baseName : String) (a i : Nat) :
    (tileEntry tilesX tilesY width height reversedY dirName baseName a i).cfgY
      = (height : Int) - ((i : Int) + 1) * ((height / tilesY : Nat) : Int) := by
  simp only [tileEntry]
  push_cast
  ring

theorem tileEntry_cfgHeight (tilesX tilesY width height : Nat)
    (reversedY : Bool) (dirName baseName : String) (a i : Nat) :
    (tileEntry tilesX tilesY width height reversedY dirName baseName
      a i).cfgHeight = ((height / tilesY : Nat) : Int) := rfl

theorem mem_tileRectOf {e : TileEntry} {x y : Int} :
    (x, y) ∈ tileRectOf e ↔
      e.left ≤ x ∧ x ≤ e.right ∧ e.top ≤ y ∧ y ≤ e.bottom := by
  simp [tileRectOf, Finset.mem_product, Finset.mem_Icc, and_assoc]

/-! ### Geometry of the tile grid -/

theorem tileRect_disjoint_of_ne (tilesX tilesY width height : Nat)
    (rv rv' : Bool) (d bs d' bs' : String) (a i a' i' : Nat)
    (hne : ¬(a = a' ∧ i = i')) :
    Disjoint
      (tileRectOf (tileEntry tilesX tilesY width height rv d bs a i))
      (tileRectOf (tileEntry tilesX tilesY width height rv' d' bs' a' i')) := by
  rw [Finset.disjoint_left]
  rintro ⟨x, y⟩ h1 h2
  rw [mem_tileRectOf] at h1 h2
  rw [tileEntry_left, tileEntry_right, tileEntry_top, tileEntry_bottom] at h1 h2
  obtain ⟨hl1, hr1, ht1, hb1⟩ := h1
  obtain ⟨hl2, hr2, ht2, hb2⟩ := h2
  have hw : (0 : Int) ≤ ((width / tilesX : Nat) : Int) := Int.natCast_nonneg _
  have hh : (0 : Int) ≤ ((height / tilesY : Nat) : Int) := Int.natCast_nonneg _
  rcases Decidable.not_and_iff_or_not.mp hne with ha | hi
  · rcases Nat.lt_or_ge a a' with hlt | hge
    · have key : ((a : Int) + 1) * ((width / tilesX : Nat) : Int)
          ≤ (a' : Int) * ((width / tilesX : Nat) : Int) := by
        apply mul_le_mul_of_nonneg_right _ hw
        exact_mod_cast hlt
      linarith
    · have hlt : a' < a := Nat.lt_of_le_of_ne hge (fun h => ha h.symm)
      have key : ((a' : Int) + 1) * ((width / tilesX : Nat) : Int)
          ≤ (a : Int) * ((width / tilesX : Nat) : Int) := by
        apply mul_le_mul_of_nonneg_right _ hw
        exact_mod_cast hlt
      linarith
  · rcases Nat.lt_or_ge i i' with hlt | hge
    · have key : ((i : Int) + 1) * ((height / tilesY : Nat) : Int)
          ≤ (i' : Int) * ((height / tilesY : Nat) : Int) := by
        apply mul_le_mul_of_nonneg_right _ hh
        exact_mod_cast hlt
      linarith
    · have hlt : i' < i := Nat.lt_of_le_of_ne hge (fun h => hi h.symm)
      have key : ((i' : Int) + 1) * ((height / tilesY : Nat) : Int)
          ≤ (i : Int) * ((height / tilesY : Nat) : Int) := by
        apply mul_le_mul_of_nonneg_right _ hh
        exact_mod_cast hlt
      linarith

theorem tileRectOf_card (tilesX tilesY width height : Nat) (reversedY : Bool)
    (dirName baseName : String) (a i : Nat) :
    (tileRectOf (tileEntry tilesX tilesY width height reversedY dirName
      baseName a i)).card = (width / tilesX) * (height / tilesY) := by
  rw [tileRectOf, Finset.card_product, Int.card_Icc, Int.card_Icc,
    tileEntry_left, tileEntry_right, tileEntry_top, tileEntry_bottom]
  have e1 : ((a : Int) + 1) * ((width / tilesX : Nat) : Int) - 1 + 1
      - (a : Int) * ((width / tilesX : Nat) : Int)
      = ((width / tilesX : Nat) : Int) := by ring
  have e2 : (height : Int) - (i : Int) * ((height / tilesY : Nat) : Int) - 1 + 1
      - ((height : Int) - ((i : Int) + 1) * ((height / tilesY : Nat) : Int))
      = ((height / tilesY : Nat) : Int) := by ring
  rw [e1, e2, Int.toNat_natCast, Int.toNat_natCast]

theorem format_tiles_entries_nodup (tilesX tilesY width height : Nat)
    (reversedY : Bool) (dirName baseName : String) :
    (format_tiles_entries tilesX tilesY width height reversedY dirName
      baseName).Nodup := by
  rw [format_tiles_entries_eq_map]
  refine List.Nodup.map_on ?_ (List.nodup_range _)
  intro n hn m hm hfe
  rw [List.mem_range] at hn hm
  have hY : 0 < tilesY := by
    rcases Nat.eq_zero_or_pos tilesY with h0 | h0
    · rw [h0, Nat.mul_zero] at hn
      omega
    · exact h0
  have hdiv : n / tilesY = m / tilesY := by
    have := congrArg TileEntry.tileX hfe
    rw [tileEntry_tileX, tileEntry_tileX] at this
    omega
  have hmod : n % tilesY = m % tilesY := by
    have := congrArg TileEntry.tileY hfe
    rw [tileEntry_tileY, tileEntry_tileY] at this
    omega
  calc n = tilesY * (n / tilesY) + n % tilesY := (Nat.div_add_mod n tilesY).symm
    _ = tilesY * (m / tilesY) + m % tilesY := by rw [hdiv, hmod]
    _ = m := Nat.div_add_mod m tilesY

/-- **C1.** For every `width`, `height` and `tilesX, tilesY ≥ 1`, the tile
rectangles produced by `_format_tiles` are pairwise disjoint, the total
area of their union is `tilesX * tilesY * (width / tilesX) * (height / tilesY)`,
and remainder pixels beyond this union (columns at or right of
`tilesX * (width / tilesX)`, rows above row `height - tilesY * (height / tilesY)`
in top-left-origin coordinates) are covered by no tile. -/
theorem format_tiles_coverage (tilesX tilesY width height : Nat)
    (hX : 1 ≤ tilesX) (hY : 1 ≤ tilesY) (reversedY : Bool)
    (dirName baseName : String) :
    (∀ e1 ∈ format_tiles_entries tilesX tilesY width height reversedY dirName
        baseName,
      ∀ e2 ∈ format_tiles_entries tilesX tilesY width height reversedY dirName
        baseName,
      e1 ≠ e2 → Disjoint (tileRectOf e1) (tileRectOf e2)) ∧
    ((format_tiles_entries tilesX tilesY width height reversedY dirName
        baseName).toFinset.biUnion tileRectOf).card
      = tilesX * tilesY * (width / tilesX) * (height / tilesY) ∧
    (∀ x y : Int,
      ((tilesX : Int) * ((width / tilesX : Nat) : Int) ≤ x ∨
        y < (height : Int) - (tilesY : Int) * ((height / tilesY : Nat) : Int)) →
      ∀ e ∈ format_tiles_entries tilesX tilesY width height reversedY dirName
        baseName, (x, y) ∉ tileRectOf e) := by
  have hdisj : ∀ e1 ∈ format_tiles_entries tilesX tilesY width height reversedY
      dirName baseName,
      ∀ e2 ∈ format_tiles_entries tilesX tilesY width height reversedY dirName
        baseName, e1 ≠ e2 → Disjoint (tileRectOf e1) (tileRectOf e2) := by
    intro e1 h1 e2 h2 hne
    obtain ⟨a, i, _, _, rfl⟩ := mem_format_tiles_entries h1
    obtain ⟨a', i', _, _, rfl⟩ := mem_format_tiles_entries h2
    apply tileRect_disjoint_of_ne
    rintro ⟨rfl, rfl⟩
    exact hne rfl
  refine ⟨hdisj, ?_, ?_⟩
  · rw [Finset.card_biUnion]
    · rw [Finset.sum_congr rfl (g := fun _ => (width / tilesX) * (height / tilesY))
        (fun e he => ?_), Finset.sum_const, smul_eq_mul,
        List.toFinset_card_of_nodup (format_tiles_entries_nodup _ _ _ _ _ _ _),
        format_tiles_entries_length]
      · ring
      · rw [List.mem_toFinset] at he
        obtain ⟨a, i, _, _, rfl⟩ := mem_format_tiles_entries he
        exact tileRectOf_card _ _ _ _ _ _ _ _ _
    · intro e1 h1 e2 h2 hne
      rw [List.mem_toFinset] at h1 h2
      exact hdisj e1 h1 e2 h2 hne
  · intro x y hor e he hmem
    obtain ⟨a, i, ha, hi, rfl⟩ := mem_format_tiles_entries he
    rw [mem_tileRectOf, tileEntry_left, tileEntry_right, tileEntry_top,
      tileEntry_bottom] at hmem
    obtain ⟨hl, hr, ht, hb⟩ := hmem
    have hw : (0 : Int) ≤ ((width / tilesX : Nat) : Int) := Int.natCast_nonneg _
    have hh : (0 : Int) ≤ ((height / tilesY : Nat) : Int) := Int.natCast_nonneg _
    rcases hor with hx | hy
    · have key : ((a : Int) + 1) * ((width / tilesX : Nat) : Int)
          ≤ (tilesX : Int) * ((width / tilesX : Nat) : Int) := by
        apply mul_le_mul_of_nonneg_right _ hw
        exact_mod_cast ha
      linarith
    · have key : ((i : Int) + 1) * ((height / tilesY : Nat) : Int)
          ≤ (tilesY : Int) * ((height / tilesY : Nat) : Int) := by
        apply mul_le_mul_of_nonneg_right _ hh
        exact_mod_cast hi
      linarith

/-- Witness for `format_tiles_coverage` at a concrete grid. -/
theorem format_tiles_coverage_witness :
    (1 ≤ 2 ∧ 1 ≤ 2) ∧
    (((format_tiles_entries 2 2 4 4 false "d" "f.1001.exr").toFinset.biUnion
        tileRectOf).card = 2 * 2 * (4 / 2) * (4 / 2)) := by
  refine ⟨⟨by decide, by decide⟩, ?_⟩
  exact (format_tiles_coverage 2 2 4 4 (by decide) (by decide) false "d"
    "f.1001.exr").2.1

/-- **C2.** For every tile position `(tileX, tileY)` with
`1 ≤ tileX ≤ tilesX` and `1 ≤ tileY ≤ tilesY`, the `_format_tiles` entry
stored at counter value `(tileX - 1) * tilesY + (tileY - 1)` (the `tile`
counter increments once per `(tile_x, tile_y)` pair, outer loop `tile_x`,
inner loop `tile_y`) is the tile labelled `(tileX, tileY)` and its region
bounds are `top = height - tileY*tileHeight`,
`bottom = height - (tileY-1)*tileHeight - 1`, `left = (tileX-1)*tileWidth`,
`right = tileX*tileWidth - 1`; moreover the counter assignment is a
bijection from the label grid onto `[0, tilesX*tilesY)`. -/
theorem format_tiles_index_bounds (tilesX tilesY width height : Nat)
    (reversedY : Bool) (dirName baseName : String) (tileX tileY : Nat)
    (hx1 : 1 ≤ tileX) (hx2 : tileX ≤ tilesX)
    (hy1 : 1 ≤ tileY) (hy2 : tileY ≤ tilesY) :
    (∃ e : TileEntry,
      (format_tiles_entries tilesX tilesY width height reversedY dirName
        baseName)[(tileX - 1) * tilesY + (tileY - 1)]? = some e ∧
      e.tileX = tileX ∧ e.tileY = tileY ∧
      e.top = (height : Int) - (tileY : Int) * ((height / tilesY : Nat) : Int) ∧
      e.bottom = (height : Int)
        - ((tileY : Int) - 1) * ((height / tilesY : Nat) : Int) - 1 ∧
      e.left = ((tileX : Int) - 1) * ((width / tilesX : Nat) : Int) ∧
      e.right = (tileX : Int) * ((width / tilesX : Nat) : Int) - 1) ∧
    Set.BijOn (fun p : Nat × Nat => (p.1 - 1) * tilesY + (p.2 - 1))
      ((Finset.Icc 1 tilesX ×ˢ Finset.Icc 1 tilesY : Finset (Nat × Nat)) :
        Set (Nat × Nat))
      ((Finset.range (tilesX * tilesY) : Finset Nat) : Set Nat) := by
  have hY : 0 < tilesY := hy1.trans hy2
  have hidx : ∀ u v : Nat, u < tilesX → v < tilesY →
      u * tilesY + v < tilesX * tilesY := by
    intro u v hu hv
    have h2 : u * tilesY + v < (u + 1) * tilesY := by
      rw [Nat.succ_mul]
      omega
    exact h2.trans_le (Nat.mul_le_mul_right _ (by omega))
  have hdm : ∀ u v : Nat, v < tilesY →
      (u * tilesY + v) / tilesY = u ∧ (u * tilesY + v) % tilesY = v := by
    intro u v hv
    constructor
    · rw [Nat.mul_comm u tilesY, Nat.mul_add_div hY, Nat.div_eq_of_lt hv,
        Nat.add_zero]
    · rw [Nat.mul_comm u tilesY, Nat.mul_add_mod, Nat.mod_eq_of_lt hv]
  constructor
  · refine ⟨tileEntry tilesX tilesY width height reversedY dirName baseName
      (tileX - 1) (tileY - 1), ?_, ?_, ?_, ?_, ?_, ?_, ?_⟩
    · rw [format_tiles_entries_eq_map, List.getElem?_map,
        List.getElem?_range (hidx _ _ (by omega) (by omega))]
      obtain ⟨hd, hm⟩ := hdm (tileX - 1) (tileY - 1) (by omega)
      simp [hd, hm]
    · rw [tileEntry_tileX]; omega
    · rw [tileEntry_tileY]; omega
    · rw [tileEntry_top]
      have hc : ((tileY - 1 : Nat) : Int) = (tileY : Int) - 1 := by omega
      rw [hc]; ring
    · rw [tileEntry_bottom]
      have hc : ((tileY - 1 : Nat) : Int) = (tileY : Int) - 1 := by omega
      rw [hc]
    · rw [tileEntry_left]
      have hc : ((tileX - 1 : Nat) : Int) = (tileX : Int) - 1 := by omega
      rw [hc]
    · rw [tileEntry_right]
      have hc : ((tileX - 1 : Nat) : Int) = (tileX : Int) - 1 := by omega
      rw [hc]; ring
  · refine ⟨?_, ?_, ?_⟩
    · intro p hp
      simp only [Finset.coe_product, Set.mem_prod, Finset.mem_coe,
        Finset.mem_Icc] at hp
      simp only [Finset.mem_coe, Finset.mem_range]
      exact hidx _ _ (by omega) (by omega)
    · intro p hp q hq heq
      simp only [Finset.coe_product, Set.mem_prod, Finset.mem_coe,
        Finset.mem_Icc] at hp hq
      have hpd := hdm (p.1 - 1) (p.2 - 1) (by omega)
      have hqd := hdm (q.1 - 1) (q.2 - 1) (by omega)
      have h1 : p.1 - 1 = q.1 - 1 := by
        have := congrArg (fun n => n / tilesY) heq
        simp only at this
        rw [hpd.1, hqd.1] at this
        exact this
      have h2 : p.2 - 1 = q.2 - 1 := by
        have := congrArg (fun n => n % tilesY) heq
        simp only at this
        rw [hpd.2, hqd.2] at this
        exact this
      have : p.1 = q.1 := by omega
      have : p.2 = q.2 := by omega
      exact Prod.ext ‹p.1 = q.1› ‹p.2 = q.2›
    · intro n hn
      simp only [Finset.mem_coe, Finset.mem_range] at hn
      refine ⟨(n / tilesY + 1, n % tilesY + 1), ?_, ?_⟩
      · simp only [Finset.coe_product, Set.mem_prod, Finset.mem_coe,
          Finset.mem_Icc]
        have hdlt : n / tilesY < tilesX :=
          Nat.div_lt_of_lt_mul (Nat.mul_comm tilesX tilesY ▸ hn)
        have hmlt : n % tilesY < tilesY := Nat.mod_lt _ hY
        exact ⟨⟨Nat.le_add_left 1 _, hdlt⟩, ⟨Nat.le_add_left 1 _, hmlt⟩⟩
      · simp only [Nat.add_sub_cancel]
        rw [Nat.mul_comm]
        exact Nat.div_add_mod n tilesY

/-- Witness for `format_tiles_index_bounds` at tile (2,1) of a 2x2 grid. -/
theorem format_tiles_index_bounds_witness :
    ((1 ≤ 2 ∧ 2 ≤ 2) ∧ (1 ≤ 1 ∧ 1 ≤ 2)) ∧
    ((∃ e : TileEntry,
      (format_tiles_entries 2 2 4 4 false "d" "f.1001.exr")[(2 - 1) * 2
        + (1 - 1)]? = some e ∧
      e.tileX = 2 ∧ e.tileY = 1 ∧
      e.top = (4 : Int) - (1 : Int) * ((4 / 2 : Nat) : Int) ∧
      e.bottom = (4 : Int) - ((1 : Int) - 1) * ((4 / 2 : Nat) : Int) - 1 ∧
      e.left = ((2 : Int) - 1) * ((4 / 2 : Nat) : Int) ∧
      e.right = (2 : Int) * ((4 / 2 : Nat) : Int) - 1) ∧
    Set.BijOn (fun p : Nat × Nat => (p.1 - 1) * 2 + (p.2 - 1))
      ((Finset.Icc 1 2 ×ˢ Finset.Icc 1 2 : Finset (Nat × Nat)) :
        Set (Nat × Nat))
      ((Finset.range (2 * 2) : Finset Nat) : Set Nat)) := by
  refine ⟨⟨⟨by decide, by decide⟩, ⟨by decide, by decide⟩⟩, ?_⟩
  exact format_tiles_index_bounds 2 2 4 4 false "d" "f.1001.exr" 2 1
    (by decide) (by decide) (by decide) (by decide)

/-- **C3.** For fixed `tilesX, tilesY, height`, a run of `_format_tiles`
with `reversed_y = true` assigns to any tile labelled `tileY = 1` (the
`tileYIndex` used in its filename and region prefix) exactly the pixel
rows that a run with `reversed_y = false` assigns to a tile labelled
`tileY = tilesY`: their `top` and `bottom` row bounds coincide. -/
theorem format_tiles_mirror_rows (tilesX tilesY width height : Nat)
    (dirName baseName : String) (e1 e2 : TileEntry)
    (h1 : e1 ∈ format_tiles_entries tilesX tilesY width height true dirName
      baseName)
    (h2 : e2 ∈ format_tiles_entries tilesX tilesY width height false dirName
      baseName)
    (hl1 : e1.tileYIndex = 1) (hl2 : e2.tileYIndex = tilesY) :
    e1.top = e2.top ∧ e1.bottom = e2.bottom := by
  obtain ⟨a, i, ha, hi, rfl⟩ := mem_format_tiles_entries h1
  obtain ⟨a', i', ha', hi', rfl⟩ := mem_format_tiles_entries h2
  rw [tileEntry_tileYIndex] at hl1 hl2
  simp only [if_pos, if_neg, Bool.false_eq_true, not_false_eq_true,
    ite_true, ite_false] at hl1 hl2
  have hieq : i = tilesY - 1 := by omega
  have hieq' : i' = tilesY - 1 := by omega
  subst hieq hieq'
  rw [tileEntry_top, tileEntry_top, tileEntry_bottom, tileEntry_bottom]
  exact ⟨rfl, rfl⟩

/-- Witness for `format_tiles_mirror_rows` on a 1x2 grid of a 2x4 image. -/
theorem format_tiles_mirror_rows_witness :
    (tileEntry 1 2 2 4 true "d" "f" 0 1
        ∈ format_tiles_entries 1 2 2 4 true "d" "f") ∧
    (tileEntry 1 2 2 4 false "d" "f" 0 1
        ∈ format_tiles_entries 1 2 2 4 false "d" "f") ∧
    (tileEntry 1 2 2 4 true "d" "f" 0 1).tileYIndex = 1 ∧
    (tileEntry 1 2 2 4 false "d" "f" 0 1).tileYIndex = 2 ∧
    ((tileEntry 1 2 2 4 true "d" "f" 0 1).top
        = (tileEntry 1 2 2 4 false "d" "f" 0 1).top ∧
      (tileEntry 1 2 2 4 true "d" "f" 0 1).bottom
        = (tileEntry 1 2 2 4 false "d" "f" 0 1).bottom) := by
  refine ⟨by decide, by decide, by decide, by decide, ?_⟩
  exact format_tiles_mirror_rows 1 2 2 4 "d" "f" _ _ (by decide) (by decide)
    (by decide) (by decide)

/-- **C4, counterexample.** The claim states that the assembly
configuration value `Tile{i}Y` equals the bottom-left-origin conversion
`height - top - tileHeight` of the tile's region top.  For the first tile
of a 1x2 grid of a 2x4 image (`height = 4`, `tileHeight = 4 / 2 = 2`), the
code emits `Tile0Y = top = 2` while the claimed conversion yields
`4 - 2 - 2 = 0`. -/
theorem tile_cfgY_counterexample :
    (tileEntry 1 2 2 4 false "d" "f" 0 0).cfgY ≠
      (4 : Int) - (tileEntry 1 2 2 4 false "d" "f" 0 0).top
        - (((4 : Nat) / 2 : Nat) : Int) := by
  decide

/-- **C4, amended.** The `Tile{i}Y` value emitted in the assembly
configuration equals the tile's top-left-origin region top itself,
`Tile{i}Y = top = height - tileY*tileHeight`, not the bottom-left-origin
conversion `height - top - tileHeight`; the two coincide for a given tile
exactly when `height = (2*tileY - 1) * tileHeight`. -/
theorem tile_cfgY_is_region_top (tilesX tilesY width height : Nat)
    (reversedY : Bool) (dirName baseName : String) (e : TileEntry)
    (he : e ∈ format_tiles_entries tilesX tilesY width height reversedY
      dirName baseName) :
    e.cfgY = e.top ∧
    e.cfgY = (height : Int)
      - (e.tileY : Int) * ((height / tilesY : Nat) : Int) ∧
    (e.cfgY = (height : Int) - e.top - e.cfgHeight ↔
      (height : Int) = (2 * (e.tileY : Int) - 1) * e.cfgHeight) := by
  obtain ⟨a, i, ha, hi, rfl⟩ := mem_format_tiles_entries he
  rw [tileEntry_cfgY, tileEntry_top, tileEntry_cfgHeight, tileEntry_tileY]
  refine ⟨rfl, ?_, ?_⟩
  · push_cast
    ring
  · push_cast
    constructor
    · intro h
      nlinarith [h]
    · intro h
      nlinarith [h]

/-- Witness for `tile_cfgY_is_region_top` at a concrete tile. -/
theorem tile_cfgY_is_region_top_witness :
    (tileEntry 2 2 4 4 false "d" "f" 0 0
        ∈ format_tiles_entries 2 2 4 4 false "d" "f") ∧
    ((tileEntry 2 2 4 4 false "d" "f" 0 0).cfgY
        = (tileEntry 2 2 4 4 false "d" "f" 0 0).top ∧
      (tileEntry 2 2 4 4 false "d" "f" 0 0).cfgY
        = (4 : Int) - ((tileEntry 2 2 4 4 false "d" "f" 0 0).tileY : Int)
          * (((4 : Nat) / 2 : Nat) : Int) ∧
      ((tileEntry 2 2 4 4 false "d" "f" 0 0).cfgY
          = (4 : Int) - (tileEntry 2 2 4 4 false "d" "f" 0 0).top
            - (tileEntry 2 2 4 4 false "d" "f" 0 0).cfgHeight ↔
        (4 : Int) = (2 * ((tileEntry 2 2 4 4 false "d" "f" 0 0).tileY : Int)
          - 1) * (tileEntry 2 2 4 4 false "d" "f" 0 0).cfgHeight)) := by
  refine ⟨by decide, ?_⟩
  exact tile_cfgY_is_region_top 2 2 4 4 false "d" "f" _ (by decide)

/-! ### The JobInfo dictionary of `_format_tiles` (single overwritten key) -/

theorem dict_set_singleton_same (k v w : String) :
    dict_set [(k, v)] k w = [(k, w)] := by
  simp [dict_set]

theorem foldl_dict_set_same_key (k : String) (f : α → String) :
    ∀ (l : List α) (v : String),
      l.foldl (fun m e => dict_set m k (f e)) [(k, v)]
        = [(k, l.foldl (fun _ e => f e) v)] := by
  intro l
  induction l with
  | nil => intro v; rfl
  | cons e rest ih =>
    intro v
    rw [List.foldl_cons, dict_set_singleton_same, ih, List.foldl_cons]

theorem foldl_dict_set_same_key_nil (k : String) (f : α → String)
    (l : List α) :
    l.foldl (fun m e => dict_set m k (f e)) [] = []
      ∨ ∃ v, l.foldl (fun m e => dict_set m k (f e)) [] = [(k, v)] := by
  cases l with
  | nil => exact Or.inl rfl
  | cons e rest =>
    right
    rw [List.foldl_cons]
    have h0 : dict_set [] k (f e) = [(k, f e)] := by simp [dict_set]
    rw [h0, foldl_dict_set_same_key]
    exact ⟨_, rfl⟩

theorem div_mod_decomp (Y u v : Nat) (hY : 0 < Y) (hv : v < Y) :
    (u * Y + v) / Y = u ∧ (u * Y + v) % Y = v := by
  constructor
  · rw [Nat.mul_comm u Y, Nat.mul_add_div hY, Nat.div_eq_of_lt hv,
      Nat.add_zero]
  · rw [Nat.mul_comm u Y, Nat.mul_add_mod, Nat.mod_eq_of_lt hv]

/-- **C10.** The `out["JobInfo"]` part returned by `_format_tiles` holds
exactly one entry: every loop iteration writes the current tile's
filename under the same key `"OutputFilename{index}"`, so after the loop
only the filename of the last tile in iteration order (outer position
`tilesX`, inner position `tilesY`) remains. -/
theorem format_tiles_job_info_single (tilesX tilesY width height : Nat)
    (hX : 1 ≤ tilesX) (hY : 1 ≤ tilesY) (reversedY : Bool) (index : Nat)
    (dirName baseName : String) :
    format_tiles_job_info tilesX tilesY width height reversedY index dirName
        baseName
      = [("OutputFilename" ++ toString index,
          (tileEntry tilesX tilesY width height reversedY dirName baseName
            (tilesX - 1) (tilesY - 1)).filename)] := by
  have hM : 1 ≤ tilesX * tilesY := Nat.mul_le_mul hX hY
  obtain ⟨m, hm⟩ : ∃ m, tilesX * tilesY = m + 1 := ⟨tilesX * tilesY - 1, by omega⟩
  rw [format_tiles_job_info, format_tiles_entries_eq_map, hm,
    List.range_succ, List.map_append, List.foldl_append]
  simp only [List.map_cons, List.map_nil, List.foldl_cons, List.foldl_nil]
  have hlast : dict_set
      ((List.map (fun n => tileEntry tilesX tilesY width height reversedY
          dirName baseName (n / tilesY) (n % tilesY)) (List.range m)).foldl
        (fun mm e => dict_set mm ("OutputFilename" ++ toString index)
          e.filename) [])
      ("OutputFilename" ++ toString index)
      (tileEntry tilesX tilesY width height reversedY dirName baseName
        (m / tilesY) (m % tilesY)).filename
      = [("OutputFilename" ++ toString index,
          (tileEntry tilesX tilesY width height reversedY dirName baseName
            (m / tilesY) (m % tilesY)).filename)] := by
    rcases foldl_dict_set_same_key_nil ("OutputFilename" ++ toString index)
        (fun e : TileEntry => e.filename)
        (List.map (fun n => tileEntry tilesX tilesY width height reversedY
          dirName baseName (n / tilesY) (n % tilesY)) (List.range m)) with
      h | ⟨v, h⟩
    · rw [h]; simp [dict_set]
    · rw [h, dict_set_singleton_same]
  rw [hlast]
  have hdec : m = (tilesX - 1) * tilesY + (tilesY - 1) := by
    have hsucc : (tilesX - 1) * tilesY + tilesY = tilesX * tilesY := by
      have : (tilesX - 1 + 1) * tilesY = (tilesX - 1) * tilesY + tilesY :=
        Nat.succ_mul _ _
      rw [← this, Nat.sub_add_cancel hX]
    omega
  obtain ⟨hd, hmod⟩ := div_mod_decomp tilesY (tilesX - 1) (tilesY - 1)
    (by omega) (by omega)
  rw [hdec, hd, hmod]

/-- Witness for `format_tiles_job_info_single` on a 2x2 grid: the JobInfo
dictionary holds only the last tile's filename. -/
theorem format_tiles_job_info_single_witness :
    (1 ≤ 2 ∧ 1 ≤ 2) ∧
    format_tiles_job_info 2 2 4 4 false 0 "d" "f.1001.exr"
      = [("OutputFilename" ++ toString 0,
          (tileEntry 2 2 4 4 false "d" "f.1001.exr" (2 - 1) (2 - 1)).filename)] := by
  refine ⟨⟨by decide, by decide⟩, ?_⟩
  exact format_tiles_job_info_single 2 2 4 4 (by decide) (by decide) false 0
    "d" "f.1001.exr"

/-! ## Submission orchestration: `MayaSubmitDeadline._tile_render` and
`AbstractSubmitDeadline.submit`

A Python value that is either `None`, an `int` or a `str` (several
`DeadlineJobInfo` fields hold any of the three over their lifetime, e.g.
`Frames` is set to the int `1` and later to a frame string). -/

inductive PyScalar where
  | pynone
  | pint (i : Int)
  | pstr (s : String)
  deriving DecidableEq

/-- Python dict insert on int keys (`DeadlineIndexedVar` storage):
overwrite in place if the key is present, else append. -/
def dict_set_int (m : List (Int × String)) (k : Int) (v : String) :
    List (Int × String) :=
  if m.any (fun p => p.1 = k) then
    m.map (fun p => if p.1 = k then (k, v) else p)
  else
    m ++ [(k, v)]

/-- The fields of `DeadlineJobInfo` read or written by `_tile_render`
while building assembly jobs.  Fields not listed here are copied
unchanged by the record updates below, exactly as `copy.deepcopy`
followed by attribute assignment leaves them unchanged in the source. -/
structure JobInfoR where
  Plugin : String
  Name : String
  Frames : PyScalar
  Priority : Int
  ChunkSize : PyScalar
  MachineLimit : PyScalar
  Pool : Option String
  TileJob : Bool
  JobDependencies : List String
  ExtraInfo : List (Int × String)
  OutputFilename : List (Int × String)
  deriving DecidableEq

/-- The shared assembly job skeleton built once in `_tile_render`
(lines `assembly_job_info = copy.deepcopy(job_info)` through
`assembly_job_info.Pool = self.job_info.Pool`). -/
def mk_assembly_job_info (base : JobInfoR) (tile_assembler_plugin : String)
    (tile_priority : Int) (pool : Option String) : JobInfoR :=
  { base with
      Plugin := tile_assembler_plugin
      Name := base.Name ++ " - Tile Assembly Job"
      Frames := PyScalar.pint 1
      MachineLimit := PyScalar.pint 1
      Priority := tile_priority
      TileJob := false
      Pool := pool }

/-- The per-frame assembly job built in the `for file in assembly_files`
loop of `_tile_render`.  `output_filename` stands for the result of the
`re.sub` that replaces the frame number with `#` padding. -/
def mk_frame_assembly_job_info (assembly_base : JobInfoR) (frame : String)
    (output_filename : String) (file_hash : String) (file : String)
    (tile_job_id : String) : JobInfoR :=
  { assembly_base with
      Name := assembly_base.Name ++ " (Frame " ++ frame ++ ")"
      OutputFilename := dict_set_int assembly_base.OutputFilename 0
        output_filename
      ExtraInfo := dict_set_int
        (dict_set_int assembly_base.ExtraInfo 0 file_hash) 1 file
      JobDependencies := assembly_base.JobDependencies ++ [tile_job_id]
      Frames := PyScalar.pstr frame }

/-- **C5, counterexample.** The claim states that an assembly job's
`JobDependencies` equals the single-element list holding its frame's tile
job id.  `_tile_render` only *appends* the tile job id to the dependency
list inherited from the base render payload, so when the base payload
already carries an export-job dependency (the `vrayscene` path of
`process_submission`), the assembly job depends on two job ids. -/
theorem assembly_dependencies_counterexample :
    (mk_frame_assembly_job_info
        (mk_assembly_job_info
          { Plugin := "MayaBatch", Name := "job", Frames := PyScalar.pynone,
            Priority := 50, ChunkSize := PyScalar.pint 10,
            MachineLimit := PyScalar.pynone, Pool := none, TileJob := true,
            JobDependencies := ["export-job-id"], ExtraInfo := [],
            OutputFilename := [] }
          "DraftTileAssembler" 50 none)
        "1001" "file.####.exr" "hash" "file.1001.exr"
        "tile-job-id").JobDependencies ≠ ["tile-job-id"] := by
  decide

/-- **C5, amended.** For every frame, the assembly job's
`JobDependencies` is the base payload's dependency list with that frame's
tile job id appended (so it equals `[tileJobId]` exactly when the base
payload has no dependencies, which is the non-export submission path);
`Frames` is fixed to the single target frame; `MachineLimit` is forced to
`1`; `ChunkSize` is left unchanged from the base payload. -/
theorem assembly_job_fields (base : JobInfoR) (tile_assembler_plugin : String)
    (tile_priority : Int) (pool : Option String) (frame output_filename
    file_hash file tile_job_id : String) :
    (mk_frame_assembly_job_info
        (mk_assembly_job_info base tile_assembler_plugin tile_priority pool)
        frame output_filename file_hash file tile_job_id).JobDependencies
      = base.JobDependencies ++ [tile_job_id] ∧
    (base.JobDependencies = [] →
      (mk_frame_assembly_job_info
          (mk_assembly_job_info base tile_assembler_plugin tile_priority pool)
          frame output_filename file_hash file tile_job_id).JobDependencies
        = [tile_job_id]) ∧
    (mk_frame_assembly_job_info
        (mk_assembly_job_info base tile_assembler_plugin tile_priority pool)
        frame output_filename file_hash file tile_job_id).Frames
      = PyScalar.pstr frame ∧
    (mk_frame_assembly_job_info
        (mk_assembly_job_info base tile_assembler_plugin tile_priority pool)
        frame output_filename file_hash file tile_job_id).MachineLimit
      = PyScalar.pint 1 ∧
    (mk_frame_assembly_job_info
        (mk_assembly_job_info base tile_assembler_plugin tile_priority pool)
        frame output_filename file_hash file tile_job_id).ChunkSize
      = base.ChunkSize := by
  refine ⟨rfl, ?_, rfl, rfl, rfl⟩
  intro h
  simp [mk_frame_assembly_job_info, mk_assembly_job_info, h]

/-- Witness for `assembly_job_fields` at a concrete dependency-free base
payload. -/
theorem assembly_job_fields_witness :
    (mk_frame_assembly_job_info
        (mk_assembly_job_info
          { Plugin := "MayaBatch", Name := "job", Frames := PyScalar.pynone,
            Priority := 50, ChunkSize := PyScalar.pint 10,
            MachineLimit := PyScalar.pynone, Pool := none, TileJob := true,
            JobDependencies := [], ExtraInfo := [], OutputFilename := [] }
          "DraftTileAssembler" 50 none)
        "1001" "file.####.exr" "hash" "file.1001.exr"
        "tile-job-id").JobDependencies = ["tile-job-id"] :=
  (assembly_job_fields
    { Plugin := "MayaBatch", Name := "job", Frames := PyScalar.pynone,
      Priority := 50, ChunkSize := PyScalar.pint 10,
      MachineLimit := PyScalar.pynone, Pool := none, TileJob := true,
      JobDependencies := [], ExtraInfo := [], OutputFilename := [] }
    "DraftTileAssembler" 50 none "1001" "file.####.exr" "hash"
    "file.1001.exr" "tile-job-id").2.1 rfl

/-- An HTTP response from the Deadline webservice, as seen by
`AbstractSubmitDeadline.submit`: `ok` is `response.ok`, `text` is
`response.text`, and `jsonId` is `some id` when the body parses as JSON
with an `"_id"` field, `none` when the body is unparseable. -/
structure DLResponse where
  ok : Bool
  text : String
  jsonId : Option String
  deriving DecidableEq

/-- `AbstractSubmitDeadline.submit`: raises `KnownPublishError` with the
response text on a non-2xx response, raises
`KnownPublishError("Broken response from DL")` on an unparseable 2xx
body, otherwise returns the job id. -/
def submit (r : DLResponse) : Except String String :=
  if r.ok = false then Except.error r.text
  else
    match r.jsonId with
    | none => Except.error "Broken response from DL"
    | some job_id => Except.ok job_id

/-- One output frame of the tile-render batch: its frame string, its
expected file and the content hash computed for the pair. -/
structure FrameJob where
  frame : String
  file : String
  file_hash : String
  deriving DecidableEq

/-- One submission attempt in the trace of `_tile_render`. -/
inductive Submission where
  | tile (frame : String)
  | assembly (frame : String) (deps : List String)
  deriving DecidableEq

def is_tile_sub : Submission → Bool
  | Submission.tile _ => true
  | Submission.assembly _ _ => false

/-- The `for frame, tile_job_payload in frame_payloads.items()` loop of
`_tile_render`: submits one tile job per frame in order, records
`(frame, job_id)` pairs, and lets the first `KnownPublishError` abort the
loop.  `oracle n` is the response to the `n`-th HTTP POST of the batch.
Returns the trace of submission attempts and either the first error or
the recorded ids plus the next call counter. -/
def run_tiles (oracle : Nat → DLResponse) (k : Nat) :
    List FrameJob → List Submission × Except String (List (String × String) × Nat)
  | [] => ([], Except.ok ([], k))
  | fj :: rest =>
    match submit (oracle k) with
    | Except.error e => ([Submission.tile fj.frame], Except.error e)
    | Except.ok job_id =>
      let r := run_tiles oracle (k + 1) rest
      (Submission.tile fj.frame :: r.1,
        match r.2 with
        | Except.error e => Except.error e
        | Except.ok (ids, k2) => Except.ok ((fj.frame, job_id) :: ids, k2))

/-- The `for i, payload in enumerate(assembly_payloads)` loop of
`_tile_render`: submits the prepared assembly jobs in order, aborting at
the first error. -/
def run_assemblies (oracle : Nat → DLResponse) (k : Nat) :
    List (String × JobInfoR) → List Submission × Except String (List String)
  | [] => ([], Except.ok [])
  | (frame, ji) :: rest =>
    match submit (oracle k) with
    | Except.error e =>
      ([Submission.assembly frame ji.JobDependencies], Except.error e)
    | Except.ok job_id =>
      let r := run_assemblies oracle (k + 1) rest
      (Submission.assembly frame ji.JobDependencies :: r.1,
        match r.2 with
        | Except.error e => Except.error e
        | Except.ok ids => Except.ok (job_id :: ids))

/-- `frame_tile_job_id[frame]` lookup used when wiring an assembly job to
its frame's tile job id. -/
def lookup_id (ids : List (String × String)) (frame : String) : String :=
  match ids.find? (fun p => p.1 = frame) with
  | some p => p.2
  | none => ""

/-- The submission flow of `_tile_render`: all frame tile jobs are
submitted first; only if every one of them succeeded are the assembly
payloads built (each wired to its frame's recorded tile job id) and
submitted. -/
def tile_render (oracle : Nat → DLResponse) (base : JobInfoR)
    (tile_assembler_plugin : String) (tile_priority : Int)
    (pool : Option String) (output_name : String → String)
    (frames : List FrameJob) : List Submission × Except String (List String) :=
  let rt := run_tiles oracle 0 frames
  match rt.2 with
  | Except.error e => (rt.1, Except.error e)
  | Except.ok (ids, k2) =>
    let ab := mk_assembly_job_info base tile_assembler_plugin tile_priority pool
    let assemblies := frames.map fun fj =>
      (fj.frame,
        mk_frame_assembly_job_info ab fj.frame (output_name fj.file)
          fj.file_hash fj.file (lookup_id ids fj.frame))
    let ra := run_assemblies oracle k2 assemblies
    (rt.1 ++ ra.1, ra.2)

/-! ### Behaviour of the submission loops -/

theorem run_tiles_trace_tiles (oracle : Nat → DLResponse) :
    ∀ (frames : List FrameJob) (k : Nat),
      ∀ s ∈ (run_tiles oracle k frames).1, is_tile_sub s = true := by
  intro frames
  induction frames with
  | nil => intro k s hs; simp [run_tiles] at hs
  | cons fj rest ih =>
    intro k s hs
    rw [run_tiles] at hs
    rcases hsub : submit (oracle k) with e | job_id <;> rw [hsub] at hs
    · simp at hs
      subst hs
      rfl
    · simp at hs
      rcases hs with hs | hs
      · subst hs; rfl
      · exact ih (k + 1) s hs

theorem run_assemblies_trace (oracle : Nat → DLResponse) :
    ∀ (jobs : List (String × JobInfoR)) (k : Nat),
      ∀ s ∈ (run_assemblies oracle k jobs).1,
        ∃ frame ji, (frame, ji) ∈ jobs ∧
          s = Submission.assembly frame ji.JobDependencies := by
  intro jobs
  induction jobs with
  | nil => intro k s hs; simp [run_assemblies] at hs
  | cons fji rest ih =>
    intro k s hs
    obtain ⟨frame, ji⟩ := fji
    rw [run_assemblies] at hs
    rcases hsub : submit (oracle k) with e | job_id <;> rw [hsub] at hs
    · simp at hs
      exact ⟨frame, ji, by simp, hs⟩
    · simp at hs
      rcases hs with hs | hs
      · exact ⟨frame, ji, by simp, hs⟩
      · obtain ⟨f, j, hmem, hsx⟩ := ih (k + 1) s hs
        exact ⟨f, j, by simp [hmem], hsx⟩

theorem run_tiles_ok_spec (oracle : Nat → DLResponse) :
    ∀ (frames : List FrameJob) (k : Nat) (tr : List Submission)
      (ids : List (String × String)) (k2 : Nat),
      run_tiles oracle k frames = (tr, Except.ok (ids, k2)) →
      tr = frames.map (fun fj => Submission.tile fj.frame) ∧
      ids.map Prod.fst = frames.map FrameJob.frame ∧
      k2 = k + frames.length ∧
      (∀ p ∈ ids, ∃ j, j < frames.length ∧
        submit (oracle (k + j)) = Except.ok p.2) := by
  intro frames
  induction frames with
  | nil =>
    intro k tr ids k2 h
    simp only [run_tiles, Prod.mk.injEq, Except.ok.injEq] at h
    obtain ⟨h1, h2, h3⟩ := h
    subst h1; subst h2; subst h3
    simp
  | cons fj rest ih =>
    intro k tr ids k2 h
    rw [run_tiles] at h
    rcases hsub : submit (oracle k) with e | job_id <;> rw [hsub] at h <;>
      simp only at h
    · exact absurd (congrArg Prod.snd h) (by simp)
    · rcases hrec : (run_tiles oracle (k + 1) rest).2 with e2 | idk
      · rw [hrec] at h
        exact absurd (congrArg Prod.snd h) (by simp)
      · obtain ⟨ids1, k1⟩ := idk
        rw [hrec] at h
        simp only [Prod.mk.injEq, Except.ok.injEq] at h
        obtain ⟨htr, hids, hk⟩ := h
        obtain ⟨htr1, hids1, hk1, hprov⟩ := ih (k + 1)
          (run_tiles oracle (k + 1) rest).1 ids1 k1
          (by rw [← hrec])
        constructor
        · rw [← htr, htr1, List.map_cons]
        constructor
        · rw [← hids, List.map_cons, hids1]
          simp
        constructor
        · rw [← hk, hk1, List.length_cons]
          omega
        · intro p hp
          rw [← hids] at hp
          rcases List.mem_cons.mp hp with hp0 | hp1
          · subst hp0
            exact ⟨0, by simp, by rw [Nat.add_zero, hsub]⟩
          · obtain ⟨j, hj, hsj⟩ := hprov p hp1
            refine ⟨j + 1, by simp only [List.length_cons]; omega, ?_⟩
            have hidx : k + (j + 1) = k + 1 + j := by omega
            rw [hidx]
            exact hsj

theorem run_tiles_err_spec (oracle : Nat → DLResponse) :
    ∀ (frames : List FrameJob) (k : Nat) (j : Nat) (e : String),
      j < frames.length → submit (oracle (k + j)) = Except.error e →
      (∀ i, i < j → ∃ v, submit (oracle (k + i)) = Except.ok v) →
      (run_tiles oracle k frames).2 = Except.error e := by
  intro frames
  induction frames with
  | nil => intro k j e hj; simp at hj
  | cons fj rest ih =>
    intro k j e hj herr hok
    rw [run_tiles]
    rcases hsub : submit (oracle k) with e0 | job_id
    · cases j with
      | zero => rw [Nat.add_zero] at herr; rw [herr] at hsub; cases hsub; rfl
      | succ j0 =>
        obtain ⟨v, hv⟩ := hok 0 (Nat.succ_pos j0)
        rw [Nat.add_zero] at hv
        rw [hv] at hsub
        cases hsub
    · cases j with
      | zero =>
        rw [Nat.add_zero] at herr
        rw [herr] at hsub
        cases hsub
      | succ j0 =>
        have hrec : (run_tiles oracle (k + 1) rest).2 = Except.error e := by
          apply ih (k + 1) j0 e (by simp only [List.length_cons] at hj; omega)
          · have hx : k + 1 + j0 = k + (j0 + 1) := by omega
            rw [hx]
            exact herr
          · intro i hi
            obtain ⟨v, hv⟩ := hok (i + 1) (by omega)
            refine ⟨v, ?_⟩
            have hx : k + 1 + i = k + (i + 1) := by omega
            rw [hx]
            exact hv
        simp only
        rw [hrec]

/-- **C6.** In `_tile_render`: the submission trace is all tile jobs
followed by all assembly jobs; an assembly job is only ever submitted
after every tile job has been submitted and acknowledged (its id
recorded); if the `j`-th submission is the first to fail (non-2xx
response or unparseable 2xx body make `submit` raise), the whole batch
stops with that first error and no assembly job is ever submitted; and
every dependency id an assembly job references beyond the base payload's
is a job id returned by an acknowledged tile submission. -/
theorem tile_render_ordering (oracle : Nat → DLResponse) (base : JobInfoR)
    (tile_assembler_plugin : String) (tile_priority : Int)
    (pool : Option String) (output_name : String → String)
    (frames : List FrameJob) :
    (∃ ts asm,
      (tile_render oracle base tile_assembler_plugin tile_priority pool
        output_name frames).1 = ts ++ asm ∧
      (∀ s ∈ ts, is_tile_sub s = true) ∧
      (∀ s ∈ asm, is_tile_sub s = false)) ∧
    ((∃ s ∈ (tile_render oracle base tile_assembler_plugin tile_priority pool
        output_name frames).1, is_tile_sub s = false) →
      ∃ ids, run_tiles oracle 0 frames
          = (frames.map (fun fj => Submission.tile fj.frame),
             Except.ok (ids, frames.length)) ∧
        ids.map Prod.fst = frames.map FrameJob.frame) ∧
    (∀ j e, j < frames.length → submit (oracle j) = Except.error e →
      (∀ i, i < j → ∃ v, submit (oracle i) = Except.ok v) →
      (tile_render oracle base tile_assembler_plugin tile_priority pool
          output_name frames).2 = Except.error e ∧
      (∀ s ∈ (tile_render oracle base tile_assembler_plugin tile_priority pool
          output_name frames).1, is_tile_sub s = true)) ∧
    (∀ f deps, Submission.assembly f deps ∈
        (tile_render oracle base tile_assembler_plugin tile_priority pool
          output_name frames).1 →
      ∃ d, deps = base.JobDependencies ++ [d] ∧
        ∃ j, j < frames.length ∧ submit (oracle j) = Except.ok d) := by
  have htiles := run_tiles_trace_tiles oracle frames 0
  rcases hres : (run_tiles oracle 0 frames).2 with e | idk
  · have hout : tile_render oracle base tile_assembler_plugin tile_priority
        pool output_name frames
        = ((run_tiles oracle 0 frames).1, Except.error e) := by
      rw [tile_render]
      simp only
      rw [hres]
    refine ⟨⟨(run_tiles oracle 0 frames).1, [], by rw [hout, List.append_nil],
      htiles, by simp⟩, ?_, ?_, ?_⟩
    · rintro ⟨s, hs, hfalse⟩
      rw [hout] at hs
      rw [htiles s hs] at hfalse
      cases hfalse
    · intro j e2 hj herr hok
      have h2 := run_tiles_err_spec oracle frames 0 j e2 hj
        (by rw [Nat.zero_add]; exact herr)
        (fun i hi => by rw [Nat.zero_add]; exact hok i hi)
      rw [hres] at h2
      obtain rfl := (Except.error.injEq .. ▸ h2 : e = e2)
      exact ⟨by rw [hout], by rw [hout]; exact htiles⟩
    · intro f deps hmem
      rw [hout] at hmem
      have := htiles _ hmem
      simp [is_tile_sub] at this
  · obtain ⟨ids, k2⟩ := idk
    have hpair : run_tiles oracle 0 frames
        = ((run_tiles oracle 0 frames).1, Except.ok (ids, k2)) := by
      rw [← hres]
    obtain ⟨htr, hfst, hk2, hprov⟩ := run_tiles_ok_spec oracle frames 0
      (run_tiles oracle 0 frames).1 ids k2 hpair
    rw [Nat.zero_add] at hk2
    have hasm := run_assemblies_trace oracle
      (frames.map fun fj =>
        (fj.frame,
          mk_frame_assembly_job_info
            (mk_assembly_job_info base tile_assembler_plugin tile_priority
              pool)
            fj.frame (output_name fj.file) fj.file_hash fj.file
            (lookup_id ids fj.frame))) k2
    have hout : tile_render oracle base tile_assembler_plugin tile_priority
        pool output_name frames
        = ((run_tiles oracle 0 frames).1 ++
            (run_assemblies oracle k2
              (frames.map fun fj =>
                (fj.frame,
                  mk_frame_assembly_job_info
                    (mk_assembly_job_info base tile_assembler_plugin
                      tile_priority pool)
                    fj.frame (output_name fj.file) fj.file_hash fj.file
                    (lookup_id ids fj.frame)))).1,
           (run_assemblies oracle k2
              (frames.map fun fj =>
                (fj.frame,
                  mk_frame_assembly_job_info
                    (mk_assembly_job_info base tile_assembler_plugin
                      tile_priority pool)
                    fj.frame (output_name fj.file) fj.file_hash fj.file
                    (lookup_id ids fj.frame)))).2) := by
      rw [tile_render]
      simp only
      rw [hres]
    have hasm_false : ∀ s ∈ (run_assemblies oracle k2
        (frames.map fun fj =>
          (fj.frame,
            mk_frame_assembly_job_info
              (mk_assembly_job_info base tile_assembler_plugin tile_priority
                pool)
              fj.frame (output_name fj.file) fj.file_hash fj.file
              (lookup_id ids fj.frame)))).1, is_tile_sub s = false := by
      intro s hs
      obtain ⟨frame, ji, _, rfl⟩ := hasm s hs
      rfl
    refine ⟨⟨(run_tiles oracle 0 frames).1, _, by rw [hout], htiles,
      hasm_false⟩, ?_, ?_, ?_⟩
    · intro _
      refine ⟨ids, ?_, hfst⟩
      rw [hpair, htr, hk2]
    · intro j e2 hj herr hok
      have h2 := run_tiles_err_spec oracle frames 0 j e2 hj
        (by rw [Nat.zero_add]; exact herr)
        (fun i hi => by rw [Nat.zero_add]; exact hok i hi)
      rw [hres] at h2
      cases h2
    · intro f deps hmem
      rw [hout] at hmem
      rcases List.mem_append.mp hmem with hmem | hmem
      · have := htiles _ hmem
        simp [is_tile_sub] at this
      · obtain ⟨frame, ji, hin, heq⟩ := hasm _ hmem
        obtain ⟨hf, hdeps⟩ := Submission.assembly.injEq .. ▸ heq
        rw [List.mem_map] at hin
        obtain ⟨fj, hfj, hpairq⟩ := hin
        obtain ⟨hfr, hji⟩ := Prod.mk.injEq .. ▸ hpairq.symm
        refine ⟨lookup_id ids fj.frame, ?_, ?_⟩
        · rw [hdeps, hji]
          rfl
        · have hframe_mem : fj.frame ∈ ids.map Prod.fst := by
            rw [hfst, List.mem_map]
            exact ⟨fj, hfj, rfl⟩
          rw [List.mem_map] at hframe_mem
          obtain ⟨p, hp, hpfst⟩ := hframe_mem
          have hfind : ∃ q, ids.find? (fun q => q.1 = fj.frame) = some q := by
            have hsome : (ids.find? (fun q => q.1 = fj.frame)).isSome := by
              rw [List.find?_isSome]
              exact ⟨p, hp, by simp [hpfst]⟩
            exact Option.isSome_iff_exists.mp hsome
          obtain ⟨q, hq⟩ := hfind
          have hqmem : q ∈ ids := List.mem_of_find?_eq_some hq
          obtain ⟨j, hjlt, hjok⟩ := hprov q hqmem
          rw [Nat.zero_add] at hjok
          refine ⟨j, hjlt, ?_⟩
          rw [lookup_id, hq]
          exact hjok

/-- Witness for `tile_render_ordering`: with the second of two tile
submissions failing, the batch surfaces that first error and no assembly
job is ever submitted. -/
theorem tile_render_ordering_witness :
    (tile_render
        (fun k => if k = 0
          then { ok := true, text := "", jsonId := some "tile-1" }
          else { ok := false, text := "boom", jsonId := none })
        { Plugin := "MayaBatch", Name := "job", Frames := PyScalar.pynone,
          Priority := 50, ChunkSize := PyScalar.pint 10,
          MachineLimit := PyScalar.pynone, Pool := none, TileJob := true,
          JobDependencies := [], ExtraInfo := [], OutputFilename := [] }
        "DraftTileAssembler" 50 none (fun file => file)
        [{ frame := "1001", file := "f.1001.exr", file_hash := "h1" },
         { frame := "1002", file := "f.1002.exr", file_hash := "h2" }]).2
      = Except.error "boom" ∧
    (∀ s ∈ (tile_render
        (fun k => if k = 0
          then { ok := true, text := "", jsonId := some "tile-1" }
          else { ok := false, text := "boom", jsonId := none })
        { Plugin := "MayaBatch", Name := "job", Frames := PyScalar.pynone,
          Priority := 50, ChunkSize := PyScalar.pint 10,
          MachineLimit := PyScalar.pynone, Pool := none, TileJob := true,
          JobDependencies := [], ExtraInfo := [], OutputFilename := [] }
        "DraftTileAssembler" 50 none (fun file => file)
        [{ frame := "1001", file := "f.1001.exr", file_hash := "h1" },
         { frame := "1002", file := "f.1002.exr", file_hash := "h2" }]).1,
      is_tile_sub s = true) := by
  apply (tile_render_ordering
    (fun k => if k = 0
      then { ok := true, text := "", jsonId := some "tile-1" }
      else { ok := false, text := "boom", jsonId := none })
    { Plugin := "MayaBatch", Name := "job", Frames := PyScalar.pynone,
      Priority := 50, ChunkSize := PyScalar.pint 10,
      MachineLimit := PyScalar.pynone, Pool := none, TileJob := true,
      JobDependencies := [], ExtraInfo := [], OutputFilename := [] }
    "DraftTileAssembler" 50 none (fun file => file)
    [{ frame := "1001", file := "f.1001.exr", file_hash := "h1" },
     { frame := "1002", file := "f.1002.exr", file_hash := "h2" }]).2.2.1
    1 "boom" (by decide) rfl
  intro i hi
  have hi0 : i = 0 := by omega
  subst hi0
  exact ⟨"tile-1", rfl⟩

/-! ## `DeadlineJobInfo` list fields (`__setattr__` / `_fill_serialize_value`)

Python strings are modelled as `List Char` here so that `str.split(",")`
and `",".join(...)` can be reasoned about directly.  `split_comma`
implements Python `s.split(",")`: it keeps empty segments and returns
`[""]` for the empty string.  `join_comma` implements `",".join(...)`. -/

def split_comma : List Char → List (List Char)
  | [] => [[]]
  | c :: rest =>
    let r := split_comma rest
    if c = ',' then [] :: r
    else
      match r with
      | [] => [[c]]
      | t :: ts => (c :: t) :: ts

def join_comma : List (List Char) → List Char
  | [] => []
  | [t] => t
  | t :: rest => t ++ ',' :: join_comma rest

/-- A value assigned to, or read from, a list-typed `DeadlineJobInfo`
field (`JobDependencies`, `Whitelist`, `Blacklist`, `LimitGroups`):
`None`, a Python `str`, or a Python `list` of strings. -/
inductive PyVal where
  | pynone
  | pystr (s : List Char)
  | pylist (l : List (List Char))
  deriving DecidableEq

/-- `DeadlineJobInfo.__setattr__` for the four list-typed fields: `None`
is stored as-is (early return), a string is split on `","`, anything else
is stored unchanged. -/
def set_list_field (value : PyVal) : PyVal :=
  match value with
  | PyVal.pystr s => PyVal.pylist (split_comma s)
  | v => v

/-- `DeadlineJobInfo._fill_serialize_value` for a scalar field: `None`
values are skipped, a list value is emitted as `",".join(value)` under
the field's key (also when the list is empty), any other value is emitted
as-is. -/
def fill_serialize_value (key : String) (value : PyVal) :
    List (String × List Char) :=
  match value with
  | PyVal.pynone => []
  | PyVal.pylist l => [(key, join_comma l)]
  | PyVal.pystr s => [(key, s)]

theorem split_comma_no_comma (t : List Char) (h : ',' ∉ t) :
    split_comma t = [t] := by
  induction t with
  | nil => rfl
  | cons c rest ih =>
    rw [split_comma]
    have hc : ¬(c = ',') := fun hc => h (by rw [hc]; exact List.mem_cons_self _ _)
    rw [if_neg hc, ih (fun hm => h (List.mem_cons_of_mem _ hm))]

theorem split_comma_append (t rest : List Char) (h : ',' ∉ t) :
    split_comma (t ++ ',' :: rest) = t :: split_comma rest := by
  induction t with
  | nil =>
    rw [List.nil_append, split_comma, if_pos rfl]
  | cons c t2 ih =>
    have hc : ¬(c = ',') := fun hc => h (by rw [hc]; exact List.mem_cons_self _ _)
    rw [List.cons_append, split_comma,
      ih (fun hm => h (List.mem_cons_of_mem _ hm)), if_neg hc]

theorem split_join_comma (tokens : List (List Char)) (hne : tokens ≠ [])
    (hcf : ∀ t ∈ tokens, ',' ∉ t) :
    split_comma (join_comma tokens) = tokens := by
  induction tokens with
  | nil => exact absurd rfl hne
  | cons t rest ih =>
    cases rest with
    | nil =>
      rw [join_comma, split_comma_no_comma t (hcf t (List.mem_cons_self _ _))]
    | cons r rest2 =>
      rw [join_comma, split_comma_append t _
        (hcf t (List.mem_cons_self _ _)),
        ih (List.cons_ne_nil r rest2)
          (fun u hu => hcf u (List.mem_cons_of_mem _ hu))]
      exact fun hx => List.noConfusion hx

/-- **C7, counterexample.** The claim states that a field holding an
empty list is omitted entirely from `serialize()` output.
`_fill_serialize_value` instead emits `",".join([]) = ""` under the
field's key, so the serialized output of an empty `Whitelist` contains
the entry `("Whitelist", "")` rather than being absent. -/
theorem empty_list_serialized_counterexample :
    fill_serialize_value "Whitelist" (PyVal.pylist [])
      = [("Whitelist", ([] : List Char))] ∧
    fill_serialize_value "Whitelist" (PyVal.pylist [])
      ≠ ([] : List (String × List Char)) := by
  exact ⟨rfl, by decide⟩

/-- **C7, amended.** Assigning a comma-separated string to a list-typed
`DeadlineJobInfo` field stores exactly `value.split(",")`, so a
comma-join of non-empty comma-free tokens reads back as the original
token list; a field holding an empty list is serialized as an empty
string under the field's key rather than omitted — only `None`-valued
fields are omitted from serialization. -/
theorem list_field_round_trip (tokens : List (List Char)) (hne : tokens ≠ [])
    (hcf : ∀ t ∈ tokens, ',' ∉ t) :
    set_list_field (PyVal.pystr (join_comma tokens)) = PyVal.pylist tokens ∧
    (∀ s : List Char, set_list_field (PyVal.pystr s)
      = PyVal.pylist (split_comma s)) ∧
    (∀ (key : String) (l : List (List Char)),
      fill_serialize_value key (PyVal.pylist l) = [(key, join_comma l)]) ∧
    (∀ key : String, fill_serialize_value key PyVal.pynone = []) := by
  refine ⟨?_, fun s => rfl, fun key l => rfl, fun key => rfl⟩
  rw [set_list_field, split_join_comma tokens hne hcf]

/-- Witness for `list_field_round_trip` on the token list `["a", "b"]`. -/
theorem list_field_round_trip_witness :
    set_list_field (PyVal.pystr (join_comma [['a'], ['b']]))
      = PyVal.pylist [['a'], ['b']] ∧
    (∀ s : List Char, set_list_field (PyVal.pystr s)
      = PyVal.pylist (split_comma s)) ∧
    (∀ (key : String) (l : List (List Char)),
      fill_serialize_value key (PyVal.pylist l) = [(key, join_comma l)]) ∧
    (∀ key : String, fill_serialize_value key PyVal.pynone = []) :=
  list_field_round_trip [['a'], ['b']] (by decide) (by decide)

/-! ## `Whitelist` / `Blacklist` -/

/-- The two machine-filter fields of `DeadlineJobInfo`.  Both default to
an empty list (`default_factory=list`). -/
structure MachineListFields where
  Whitelist : PyVal
  Blacklist : PyVal
  deriving DecidableEq

/-- `DeadlineJobInfo()` defaults for the machine-filter fields. -/
def default_machine_list_fields : MachineListFields :=
  { Whitelist := PyVal.pylist [], Blacklist := PyVal.pylist [] }

/-- Assignment `job_info.Whitelist = value` through
`DeadlineJobInfo.__setattr__`. -/
def set_whitelist (r : MachineListFields) (value : PyVal) :
    MachineListFields :=
  { r with Whitelist := set_list_field value }

/-- Assignment `job_info.Blacklist = value` through
`DeadlineJobInfo.__setattr__`. -/
def set_blacklist (r : MachineListFields) (value : PyVal) :
    MachineListFields :=
  { r with Blacklist := set_list_field value }

def is_nonempty_list : PyVal → Bool
  | PyVal.pylist (_ :: _) => true
  | _ => false

/-- **C8, counterexample.** The claim states that setting one of
`Whitelist`/`Blacklist` clears the other, so at most one is non-empty at
any time.  After `Whitelist = "a"` followed by `Blacklist = "b"`, both
fields are non-empty: `__setattr__` only normalizes the assigned value
and never touches the sibling field. -/
theorem whitelist_blacklist_counterexample :
    is_nonempty_list
      (set_blacklist
        (set_whitelist default_machine_list_fields (PyVal.pystr ['a']))
        (PyVal.pystr ['b'])).Whitelist = true ∧
    is_nonempty_list
      (set_blacklist
        (set_whitelist default_machine_list_fields (PyVal.pystr ['a']))
        (PyVal.pystr ['b'])).Blacklist = true := by
  decide

/-- **C8, amended.** `Whitelist` and `Blacklist` are independent fields:
assigning either one normalizes the assigned value (splitting a
comma-separated string) but leaves the other field unchanged, so nothing
prevents both from being non-empty simultaneously; the mutual exclusivity
of the two filters is not enforced by `DeadlineJobInfo`. -/
theorem whitelist_blacklist_independent (r : MachineListFields)
    (value : PyVal) :
    (set_whitelist r value).Blacklist = r.Blacklist ∧
    (set_blacklist r value).Whitelist = r.Whitelist ∧
    (set_whitelist r value).Whitelist = set_list_field value ∧
    (set_blacklist r value).Blacklist = set_list_field value :=
  ⟨rfl, rfl, rfl, rfl⟩

/-! ## `DeadlineIndexedVar`

The dict state is an association list of int keys (insertion-ordered,
insert overwrites in place, like a Python dict).  A key passed to
`__setitem__` is either an int or some other (string) value, mirroring
Python's dynamic typing. -/

inductive PyKey where
  | intKey (i : Int)
  | strKey (s : String)
  deriving DecidableEq

inductive PyError where
  | typeError
  | valueError
  deriving DecidableEq

/-- `DeadlineIndexedVar.__setitem__`: raises `TypeError` for a non-int
key and `ValueError` for a negative int key, before any mutation;
otherwise stores the value under the key. -/
def set_item (st : List (Int × String)) (key : PyKey) (value : String) :
    Except PyError (List (Int × String)) :=
  match key with
  | PyKey.strKey _ => Except.error PyError.typeError
  | PyKey.intKey i =>
    if i < 0 then Except.error PyError.valueError
    else Except.ok (dict_set_int st i value)

def has_key (st : List (Int × String)) (i : Int) : Bool :=
  st.any (fun p => p.1 = i)

/-- The `while i in self.keys(): i += 1` loop of `next_available_index`;
the fuel argument only bounds the search, `st.length + 1` steps always
suffice to reach the first unused index. -/
def next_available_index_aux (st : List (Int × String)) :
    Nat → Nat → Nat
  | i, 0 => i
  | i, Nat.succ fuel =>
    if has_key st (i : Int) then next_available_index_aux st (i + 1) fuel
    else i

/-- `DeadlineIndexedVar.next_available_index`: the first unused
non-negative integer index. -/
def next_available_index (st : List (Int × String)) : Nat :=
  next_available_index_aux st 0 (st.length + 1)

/-- `DeadlineIndexedVar.append`: stores the value at
`next_available_index`. -/
def append_var (st : List (Int × String)) (value : String) :
    List (Int × String) :=
  match set_item st (PyKey.intKey (next_available_index st)) value with
  | Except.ok st2 => st2
  | Except.error _ => st

/-- An operation performed on a `DeadlineIndexedVar`: `var[key] = value`
or `var.append(value)` (`+=` and `extend` reduce to `append`, `update`
and `add` reduce to `__setitem__`/`append`). -/
inductive VarOp where
  | setOp (key : PyKey) (value : String)
  | appendOp (value : String)
  deriving DecidableEq

def apply_var_op (st : List (Int × String)) : VarOp → List (Int × String)
  | VarOp.setOp key value =>
    match set_item st key value with
    | Except.ok st2 => st2
    | Except.error _ => st
  | VarOp.appendOp value => append_var st value

/-- State of a `DeadlineIndexedVar` after a sequence of operations on a
freshly constructed (empty) instance. -/
def run_var_ops (ops : List VarOp) : List (Int × String) :=
  ops.foldl apply_var_op []

theorem dict_set_int_keys (m : List (Int × String)) (k : Int) (v : String) :
    ∀ p ∈ dict_set_int m k v, p.1 = k ∨ p ∈ m := by
  intro p hp
  rw [dict_set_int] at hp
  by_cases hany : m.any (fun q => q.1 = k) = true
  · rw [if_pos hany] at hp
    rw [List.mem_map] at hp
    obtain ⟨q, hq, hqe⟩ := hp
    by_cases hq1 : q.1 = k
    · rw [if_pos hq1] at hqe
      left
      rw [← hqe]
    · rw [if_neg hq1] at hqe
      right
      rw [← hqe]
      exact hq
  · rw [if_neg hany] at hp
    rcases List.mem_append.mp hp with h | h
    · right; exact h
    · left
      rw [List.mem_singleton] at h
      rw [h]

theorem exists_unused_index (st : List (Int × String)) :
    ∃ m : Nat, m ≤ st.length ∧ has_key st (m : Int) = false := by
  by_contra hcon
  push_neg at hcon
  have hall : ∀ m : Nat, m ≤ st.length → has_key st (m : Int) = true := by
    intro m hm
    have := hcon m hm
    revert this
    cases has_key st (m : Int) <;> simp
  have hsub : (Finset.range (st.length + 1)).image (fun m : Nat => (m : Int))
      ⊆ (st.map Prod.fst).toFinset := by
    intro x hx
    rw [Finset.mem_image] at hx
    obtain ⟨m, hm, rfl⟩ := hx
    rw [Finset.mem_range] at hm
    have hk := hall m (by omega)
    rw [has_key, List.any_eq_true] at hk
    obtain ⟨p, hp, hpk⟩ := hk
    rw [List.mem_toFinset, List.mem_map]
    refine ⟨p, hp, ?_⟩
    simpa using hpk
  have hcard : ((Finset.range (st.length + 1)).image
      (fun m : Nat => (m : Int))).card = st.length + 1 := by
    rw [Finset.card_image_of_injective _ (fun a b hab => by exact_mod_cast hab),
      Finset.card_range]
  have h1 : st.length + 1 ≤ (st.map Prod.fst).toFinset.card := by
    rw [← hcard]
    exact Finset.card_le_card hsub
  have h2 : (st.map Prod.fst).toFinset.card ≤ st.length := by
    calc (st.map Prod.fst).toFinset.card ≤ (st.map Prod.fst).length :=
        List.toFinset_card_le _
      _ = st.length := List.length_map _ _
  omega

theorem next_available_index_aux_spec (st : List (Int × String)) :
    ∀ (fuel i : Nat),
      (∃ m : Nat, i ≤ m ∧ m < i + fuel ∧ has_key st (m : Int) = false) →
      has_key st ((next_available_index_aux st i fuel : Nat) : Int) = false ∧
      i ≤ next_available_index_aux st i fuel ∧
      (∀ j : Nat, i ≤ j → j < next_available_index_aux st i fuel →
        has_key st (j : Int) = true) := by
  intro fuel
  induction fuel with
  | zero =>
    intro i h
    obtain ⟨m, h1, h2, _⟩ := h
    omega
  | succ fuel ih =>
    intro i h
    obtain ⟨m, h1, h2, h3⟩ := h
    rw [next_available_index_aux]
    by_cases hk : has_key st (i : Int) = true
    · rw [if_pos hk]
      have hmi : i ≠ m := by
        intro he
        rw [he, h3] at hk
        cases hk
      obtain ⟨ha, hb, hc⟩ := ih (i + 1) ⟨m, by omega, by omega, h3⟩
      refine ⟨ha, by omega, ?_⟩
      intro j hj1 hj2
      by_cases hji : j = i
      · rw [hji]; exact hk
      · exact hc j (by omega) hj2
    · rw [if_neg hk]
      refine ⟨?_, Nat.le_refl i, ?_⟩
      · revert hk
        cases has_key st (i : Int) <;> simp
      · intro j hj1 hj2
        omega

/-- **C9.** Every key stored in a `DeadlineIndexedVar` is a non-negative
integer: `__setitem__` raises `TypeError` on a non-int key and
`ValueError` on a negative int key before any mutation, so any sequence
of set/append operations on a fresh instance leaves only non-negative
int keys; and `append` always stores its value at the lowest unused
non-negative index — in particular after inserting at indices `{0, 2}`
the next append uses index `1`, not `3`. -/
theorem indexed_var_invariants :
    (∀ ops : List VarOp, ∀ p ∈ run_var_ops ops, 0 ≤ p.1) ∧
    (∀ (st : List (Int × String)) (s : String) (v : String),
      set_item st (PyKey.strKey s) v = Except.error PyError.typeError) ∧
    (∀ (st : List (Int × String)) (i : Int) (v : String), i < 0 →
      set_item st (PyKey.intKey i) v = Except.error PyError.valueError) ∧
    (∀ st : List (Int × String),
      has_key st ((next_available_index st : Nat) : Int) = false ∧
      (∀ j : Nat, j < next_available_index st →
        has_key st (j : Int) = true)) ∧
    (∀ (st : List (Int × String)) (v : String),
      append_var st v = dict_set_int st (next_available_index st) v) ∧
    append_var [(0, "a"), (2, "b")] "c" = [(0, "a"), (2, "b"), (1, "c")] := by
  have hnext : ∀ st : List (Int × String),
      has_key st ((next_available_index st : Nat) : Int) = false ∧
      (∀ j : Nat, j < next_available_index st →
        has_key st (j : Int) = true) := by
    intro st
    obtain ⟨m, hm1, hm2⟩ := exists_unused_index st
    obtain ⟨ha, _, hc⟩ := next_available_index_aux_spec st (st.length + 1) 0
      ⟨m, Nat.zero_le m, by omega, hm2⟩
    exact ⟨ha, fun j hj => hc j (Nat.zero_le j) hj⟩
  have happend : ∀ (st : List (Int × String)) (v : String),
      append_var st v = dict_set_int st (next_available_index st) v := by
    intro st v
    rw [append_var, set_item,
      if_neg (Int.not_lt.mpr (Int.natCast_nonneg (next_available_index st)))]
  have hinv : ∀ (ops : List VarOp) (st : List (Int × String)),
      (∀ q ∈ st, 0 ≤ q.1) → ∀ p ∈ ops.foldl apply_var_op st, 0 ≤ p.1 := by
    intro ops
    induction ops with
    | nil => intro st hst p hp; exact hst p hp
    | cons op rest ih =>
      intro st hst p hp
      rw [List.foldl_cons] at hp
      refine ih (apply_var_op st op) ?_ p hp
      intro q hq
      cases op with
      | setOp key value =>
        cases key with
        | strKey s => exact hst q hq
        | intKey i =>
          rw [apply_var_op, set_item] at hq
          by_cases hi : i < 0
          · rw [if_pos hi] at hq
            exact hst q hq
          · rw [if_neg hi] at hq
            simp only at hq
            rcases dict_set_int_keys st i value q hq with h | h
            · rw [h]; omega
            · exact hst q h
      | appendOp value =>
        rw [apply_var_op, happend] at hq
        rcases dict_set_int_keys st _ value q hq with h | h
        · rw [h]
          exact Int.natCast_nonneg _
        · exact hst q h
  refine ⟨?_, fun st s v => rfl, ?_, hnext, happend, ?_⟩
  · intro ops p hp
    exact hinv ops [] (by intro q hq; cases hq) p hp
  · intro st i v hi
    rw [set_item, if_pos hi]
  · rw [happend]
    decide

/-- Witness for `indexed_var_invariants`: a negative key is rejected, a
set/append trace keeps keys non-negative, and appending after inserting
at `{0, 2}` fills index `1`. -/
theorem indexed_var_invariants_witness :
    set_item [] (PyKey.intKey (-1)) "x" = Except.error PyError.valueError ∧
    has_key [(0, "a"), (2, "b")]
      ((next_available_index [(0, "a"), (2, "b")] : Nat) : Int) = false ∧
    append_var [(0, "a"), (2, "b")] "c" = [(0, "a"), (2, "b"), (1, "c")] :=
  ⟨indexed_var_invariants.2.2.1 [] (-1) "x" (by decide),
    (indexed_var_invariants.2.2.2.1 [(0, "a"), (2, "b")]).1,
    indexed_var_invariants.2.2.2.2.2⟩

end AyonDeadline
